import Mathlib

/-!
# Verification of the mozlz4 container codec

Shallow embedding of `mozlz4.go` (package `mozlz4`): the functions
`Compress` and `Decompress`, which frame a single LZ4-compressed block
with the fixed magic header `"mozLz40\0"` and a little-endian uint32
uncompressed-size field.

Bytes are modelled as `List Nat`; wherever Go reads a byte or casts to
`uint32`, the embedding reduces modulo `256` / `2 ^ 32`, mirroring the
machine arithmetic.  The external block codec (`lz4.Compressor.CompressBlock`,
`lz4.UncompressBlock` from `github.com/pierrec/lz4/v4`) is out of scope of
the repository and is abstracted as a `BlockCodec` parameter; the only fact
assumed about it unconditionally is the documented API contract that
`UncompressBlock` writes into the destination buffer and hence reports at
most `len(dst)` bytes written.

Go functions returning `([]byte, error)` are embedded as
`Option Bytes × Option Err`: `none` in the first component is Go's `nil`
slice, `none` in the second is a `nil` error.
-/

namespace Mozlz4

/-- Byte sequences (`[]byte`); a genuine byte is `< 256`, and every read
that feeds machine arithmetic reduces modulo 256. -/
abbrev Bytes := List Nat

/-- The errors the package can return: `ErrInvalid`
(`errors.New("not a mozlz4 file")`), the `fmt.Errorf` size-mismatch error
carrying the expected and actual byte counts, and errors propagated
verbatim from the block-codec library (tagged by a numeric code). -/
inductive Err where
  | errInvalid : Err
  | sizeMismatch (expected actual : Nat) : Err
  | codecErr (e : Nat) : Err
deriving DecidableEq

/-- `var HEADER = []byte("mozLz40\x00")` from `mozlz4.go`. -/
def HEADER : Bytes := [0x6d, 0x6f, 0x7a, 0x4c, 0x7a, 0x34, 0x30, 0x00]

/-- `lz4.CompressBlockBound(n) = n + n/255 + 16` from the lz4 library,
used by `Compress` only to size the destination buffer. -/
def CompressBlockBound (n : Nat) : Nat := n + n / 255 + 16

/-- The little-endian encoding of `uint32(n)`: the four bytes Go's
`binary.Append(buf, binary.LittleEndian, uint32(len(data)))` appends.
Each byte is reduced modulo 256, so the field holds `n % 2^32`. -/
def putUint32LE (n : Nat) : Bytes :=
  [n % 256, n / 2 ^ 8 % 256, n / 2 ^ 16 % 256, n / 2 ^ 24 % 256]

/-- Go's `binary.Decode(data, binary.LittleEndian, &size)` for a `uint32`
target: fails unless at least 4 bytes are present, otherwise consumes
exactly 4 and returns the little-endian value together with the rest. -/
def getUint32LE (bs : Bytes) : Option (Nat × Bytes) :=
  match bs with
  | b0 :: b1 :: b2 :: b3 :: rest =>
      some (b0 % 256 + b1 % 256 * 2 ^ 8 + b2 % 256 * 2 ^ 16 + b3 % 256 * 2 ^ 24, rest)
  | _ => none

/-- Go's `binary.Append(buf, binary.LittleEndian, uint32(v))`: appending a
fixed-size `uint32` never fails, so the result is always `Except.ok`
(`binary.Append` only errors on unsupported value types). -/
def binaryAppendUint32 (buf : Bytes) (v : Nat) : Except Nat Bytes :=
  Except.ok (buf ++ putUint32LE v)

/-- The abstracted block-codec collaborator (`github.com/pierrec/lz4/v4`).
`compressBlock src cap` models `c.CompressBlock(src, dst)` with
`len(dst) = cap`, returning the bytes written or an error code.
`uncompressBlock src dstLen` models `lz4.UncompressBlock(src, dst)` with
`len(dst) = dstLen`, returning the bytes written.  `uncomp_le` is the
documented API fact that `UncompressBlock` writes into `dst`, so the
reported count is at most `dstLen`. -/
structure BlockCodec where
  compressBlock : Bytes → Nat → Except Nat Bytes
  uncompressBlock : Bytes → Nat → Except Nat Bytes
  uncomp_le : ∀ src dstLen r, uncompressBlock src dstLen = Except.ok r →
    r.length ≤ dstLen

/-- `func Compress(data []byte) ([]byte, error)` from `mozlz4.go`:
append `HEADER`, append `uint32(len(data))` little-endian (the
`binary.Append` error branch), then, when `len(data) != 0`, compress
`data` into the remaining capacity `CompressBlockBound(len(data))` and
extend the buffer by the bytes written. -/
def Compress (codec : BlockCodec) (data : Bytes) : Option Bytes × Option Err :=
  match binaryAppendUint32 HEADER data.length with
  | Except.error e => (none, some (Err.codecErr e))
  | Except.ok buf =>
      if data.length ≠ 0 then
        match codec.compressBlock data (CompressBlockBound data.length) with
        | Except.error e => (none, some (Err.codecErr e))
        | Except.ok c => (some (buf ++ c), none)
      else
        (some buf, none)

/-- `func Decompress(data []byte) ([]byte, error)` from `mozlz4.go`:
`bytes.CutPrefix(data, HEADER)` (fail `ErrInvalid` when the header is not
a prefix), decode a little-endian `uint32` size (fail `ErrInvalid` when
fewer than 4 bytes remain), return `[]byte{}` when `size == 0`, else
decompress the remaining bytes into a `size`-byte buffer and fail with
the size-mismatch error when the bytes written differ from `size`
(`uint32(n) != size`; `n ≤ size < 2^32` by `uncomp_le`, so plain equality
on `Nat` is the same test). -/
def Decompress (codec : BlockCodec) (input : Bytes) : Option Bytes × Option Err :=
  if HEADER <+: input then
    match getUint32LE (input.drop HEADER.length) with
    | none => (none, some Err.errInvalid)
    | some (size, rest) =>
        if size = 0 then
          (some [], none)
        else
          match codec.uncompressBlock rest size with
          | Except.error e => (none, some (Err.codecErr e))
          | Except.ok r =>
              if r.length = size then (some r, none)
              else (none, some (Err.sizeMismatch size r.length))
  else
    (none, some Err.errInvalid)

/-- The block codec's own round-trip contract, as assumed by the spec's
round-trip property: whenever `compressBlock` succeeds at the capacity
`Compress` actually supplies, `uncompressBlock` at the original length
recovers the input. -/
def RoundTrips (codec : BlockCodec) : Prop :=
  ∀ src c, codec.compressBlock src (CompressBlockBound src.length) = Except.ok c →
    codec.uncompressBlock c src.length = Except.ok src

/-- A trivial block codec used for concrete witnesses: compression is the
identity and decompression copies at most the destination length. -/
def copyCodec : BlockCodec where
  compressBlock := fun src _ => Except.ok src
  uncompressBlock := fun src dstLen => Except.ok (src.take dstLen)
  uncomp_le := by
    intro src dstLen r h
    cases h
    exact List.length_take_le dstLen src

/-- A block codec that always fails (error code 7), used for concrete
witnesses of error propagation. -/
def failCodec : BlockCodec where
  compressBlock := fun _ _ => Except.error 7
  uncompressBlock := fun _ _ => Except.error 7
  uncomp_le := by intro src dstLen r h; cases h

theorem copyCodec_roundTrips : RoundTrips copyCodec := by
  intro src c h
  cases h
  simp [copyCodec, List.take_length]

theorem getUint32LE_put (n : Nat) (rest : Bytes) :
    getUint32LE (putUint32LE n ++ rest) = some (n % 2 ^ 32, rest) := by
  simp only [putUint32LE, List.cons_append, List.nil_append, getUint32LE,
    Option.some.injEq, Prod.mk.injEq, and_true]
  omega

theorem getUint32LE_short (t : Bytes) (h : t.length < 4) : getUint32LE t = none := by
  match t with
  | [] => rfl
  | [_] => rfl
  | [_, _] => rfl
  | [_, _, _] => rfl
  | _ :: _ :: _ :: _ :: _ => simp at h; omega

theorem putUint32LE_mod (n : Nat) : putUint32LE (n % 2 ^ 32) = putUint32LE n := by
  simp only [putUint32LE, List.cons.injEq, and_true]
  refine ⟨by omega, by omega, by omega, by omega⟩

theorem drop_header_append (x : Bytes) : (HEADER ++ x).drop HEADER.length = x :=
  List.drop_left _ _

theorem header_prefix_append (x : Bytes) : HEADER <+: HEADER ++ x :=
  List.prefix_append _ _

/-- Behaviour of `Compress` on nonempty input when the block compressor
succeeds: header, size field, then the compressor's output. -/
theorem compress_ok (codec : BlockCodec) (data c : Bytes)
    (hd : data.length ≠ 0)
    (hc : codec.compressBlock data (CompressBlockBound data.length) = Except.ok c) :
    Compress codec data =
      (some (HEADER ++ (putUint32LE data.length ++ c)), none) := by
  simp [Compress, binaryAppendUint32, hd, hc]

/-- Behaviour of `Compress` on nonempty input when the block compressor
fails: the error is propagated and no buffer is returned. -/
theorem compress_err (codec : BlockCodec) (data : Bytes) (e : Nat)
    (hd : data.length ≠ 0)
    (hc : codec.compressBlock data (CompressBlockBound data.length) = Except.error e) :
    Compress codec data = (none, some (Err.codecErr e)) := by
  simp [Compress, binaryAppendUint32, hd, hc]

/-- Behaviour of `Decompress` on a well-framed input: header, a 4-byte
size field holding `size < 2^32`, then the payload. -/
theorem decompress_frame (codec : BlockCodec) (size : Nat) (payload : Bytes)
    (hsize : size < 2 ^ 32) :
    Decompress codec (HEADER ++ (putUint32LE size ++ payload)) =
      if size = 0 then (some [], none)
      else
        match codec.uncompressBlock payload size with
        | Except.error e => (none, some (Err.codecErr e))
        | Except.ok r =>
            if r.length = size then (some r, none)
            else (none, some (Err.sizeMismatch size r.length)) := by
  unfold Decompress
  rw [if_pos (header_prefix_append _), drop_header_append, getUint32LE_put,
    Nat.mod_eq_of_lt hsize]

/-- Claim C4 — magic rejection: `Decompress` of any buffer whose first 8
bytes are not the magic constant (this includes every buffer shorter than
8 bytes, the empty buffer among them) fails with `ErrInvalid` and returns
no output buffer. -/
theorem decompress_bad_magic (codec : BlockCodec) (input : Bytes)
    (h : input.take 8 ≠ HEADER) :
    Decompress codec input = (none, some Err.errInvalid) := by
  have hp : ¬ HEADER <+: input := by
    intro hpre
    exact h (List.prefix_iff_eq_take.mp hpre).symm
  simp [Decompress, hp]

theorem decompress_bad_magic_witness :
    Decompress copyCodec [] = (none, some Err.errInvalid) :=
  decompress_bad_magic copyCodec [] (by decide)

/-- Claim C5 — truncated size field: `Decompress` of the magic followed by
fewer than 4 further bytes fails with `ErrInvalid`. -/
theorem decompress_truncated_size (codec : BlockCodec) (t : Bytes)
    (ht : t.length < 4) :
    Decompress codec (HEADER ++ t) = (none, some Err.errInvalid) := by
  unfold Decompress
  rw [if_pos (header_prefix_append _), drop_header_append, getUint32LE_short t ht]

theorem decompress_truncated_size_witness :
    Decompress copyCodec (HEADER ++ [1, 2]) = (none, some Err.errInvalid) :=
  decompress_truncated_size copyCodec [1, 2] (by decide)

/-- Claim C6 — empty-payload shortcut: `Decompress` of the magic followed
by a zero size field returns the empty byte sequence, for arbitrary
trailing bytes `t` (they are not validated) and for every block codec
(the decompressor is never consulted). -/
theorem decompress_zero_size (codec : BlockCodec) (t : Bytes) :
    Decompress codec (HEADER ++ ([0, 0, 0, 0] ++ t)) = (some [], none) := by
  have h := decompress_frame codec 0 t (by norm_num)
  simpa [putUint32LE] using h

/-- Claim C7 — empty input: `Compress` of the empty sequence is exactly the
12 bytes `6d 6f 7a 4c 7a 34 30 00 00 00 00 00` for every block codec (the
compressor is never invoked), and `Decompress` of those 12 bytes returns
the empty sequence. -/
theorem compress_decompress_empty (codec : BlockCodec) :
    Compress codec [] =
      (some [0x6d, 0x6f, 0x7a, 0x4c, 0x7a, 0x34, 0x30, 0x00,
        0x00, 0x00, 0x00, 0x00], none) ∧
    Decompress codec [0x6d, 0x6f, 0x7a, 0x4c, 0x7a, 0x34, 0x30, 0x00,
        0x00, 0x00, 0x00, 0x00] = (some [], none) := by
  constructor
  · rfl
  · have h := decompress_frame codec 0 [] (by norm_num)
    simpa [HEADER, putUint32LE] using h

/-- Claim C3 — size-mismatch detection: on an input with a valid magic and
a size field declaring `size`, if the block decompressor succeeds on the
payload but reports a byte count different from `size`, `Decompress`
fails with the size-mismatch error carrying the expected count `size` and
the actual count. -/
theorem decompress_size_mismatch (codec : BlockCodec) (size : Nat)
    (payload r : Bytes) (hsize : size < 2 ^ 32)
    (hr : codec.uncompressBlock payload size = Except.ok r)
    (hne : r.length ≠ size) :
    Decompress codec (HEADER ++ (putUint32LE size ++ payload)) =
      (none, some (Err.sizeMismatch size r.length)) := by
  have hs0 : size ≠ 0 := by
    have := codec.uncomp_le payload size r hr
    omega
  rw [decompress_frame codec size payload hsize, if_neg hs0, hr]
  simp [hne]

theorem decompress_size_mismatch_witness :
    Decompress copyCodec (HEADER ++ (putUint32LE 3 ++ [32, 123])) =
      (none, some (Err.sizeMismatch 3 2)) :=
  decompress_size_mismatch copyCodec 3 [32, 123] [32, 123] (by decide) rfl (by decide)

/-- Claim C1 — round-trip: for every byte sequence `d` shorter than
`2 ^ 32`, if the block codec satisfies its own round-trip contract and
`Compress` succeeds with output `out`, then `Decompress out` succeeds and
returns exactly `d`. -/
theorem compress_decompress_roundtrip (codec : BlockCodec) (d out : Bytes)
    (hrt : RoundTrips codec) (hlen : d.length < 2 ^ 32)
    (h : Compress codec d = (some out, none)) :
    Decompress codec out = (some d, none) := by
  by_cases hd : d.length = 0
  · have hd' : d = [] := List.length_eq_zero.mp hd
    subst hd'
    have hc : Compress codec [] = (some (HEADER ++ putUint32LE 0), none) := rfl
    rw [hc] at h
    injection h with h1 h2
    injection h1 with h1
    subst h1
    have hf := decompress_frame codec 0 [] (by norm_num)
    simpa using hf
  · rcases hcb : codec.compressBlock d (CompressBlockBound d.length) with e | c
    · have hc : Compress codec d = (none, some (Err.codecErr e)) := by
        simp [Compress, binaryAppendUint32, hd, hcb]
      rw [hc] at h
      simp at h
    · have hc : Compress codec d = (some (HEADER ++ (putUint32LE d.length ++ c)), none) := by
        simp [Compress, binaryAppendUint32, hd, hcb]
      rw [hc] at h
      injection h with h1 h2
      injection h1 with h1
      subst h1
      rw [decompress_frame codec d.length c hlen, if_neg hd, hrt d c hcb]
      simp

theorem compress_decompress_roundtrip_witness :
    Decompress copyCodec [0x6d, 0x6f, 0x7a, 0x4c, 0x7a, 0x34, 0x30, 0x00,
        3, 0, 0, 0, 1, 2, 3] = (some [1, 2, 3], none) :=
  compress_decompress_roundtrip copyCodec [1, 2, 3]
    [0x6d, 0x6f, 0x7a, 0x4c, 0x7a, 0x34, 0x30, 0x00, 3, 0, 0, 0, 1, 2, 3]
    copyCodec_roundTrips (by decide) (by decide)

/-- Claim C2, counterexample: `Compress` does not fail on an input of
length `2 ^ 32`.  The source has no length check at all — it casts
`len(data)` to `uint32` — so with a compressor that accepts the input,
`Compress` succeeds and produces a container whose size field wrapped
around to `0` (note `putUint32LE 0` in the output).  There is no
size-overflow error in the code (`Err` exhausts its error values). -/
theorem compress_no_overflow_check_counterexample :
    Compress copyCodec (List.replicate (2 ^ 32) 0) =
      (some (HEADER ++ (putUint32LE 0 ++ List.replicate (2 ^ 32) 0)), none) := by
  have hlen : (List.replicate (2 ^ 32) (0 : Nat)).length = 2 ^ 32 :=
    List.length_replicate _ _
  have hd : (List.replicate (2 ^ 32) (0 : Nat)).length ≠ 0 := by rw [hlen]; norm_num
  have hput : putUint32LE (List.replicate (2 ^ 32) (0 : Nat)).length = putUint32LE 0 := by
    rw [hlen]; simp [putUint32LE]
  rw [compress_ok copyCodec (List.replicate (2 ^ 32) 0) (List.replicate (2 ^ 32) 0)
    hd rfl, hput]

/-- Claim C2 as amended — `Compress` performs no overflow check: for an
input of length at least `2 ^ 32` it does not fail; whenever the block
compressor accepts the input it succeeds, storing `len(data) mod 2 ^ 32`
in the size field. -/
theorem compress_wraps_oversize (codec : BlockCodec) (data c : Bytes)
    (hbig : 2 ^ 32 ≤ data.length)
    (hc : codec.compressBlock data (CompressBlockBound data.length) = Except.ok c) :
    Compress codec data =
      (some (HEADER ++ (putUint32LE (data.length % 2 ^ 32) ++ c)), none) := by
  have hd : data.length ≠ 0 := by omega
  rw [compress_ok codec data c hd hc, putUint32LE_mod]

theorem compress_wraps_oversize_witness :
    Compress copyCodec (List.replicate (2 ^ 32) 1) =
      (some (HEADER ++ (putUint32LE ((List.replicate (2 ^ 32) (1 : Nat)).length % 2 ^ 32) ++
        List.replicate (2 ^ 32) 1)), none) :=
  compress_wraps_oversize copyCodec (List.replicate (2 ^ 32) 1)
    (List.replicate (2 ^ 32) 1) (List.length_replicate (2 ^ 32) 1).ge rfl

/-- Claim C8 — deterministic framing: whenever `Compress` succeeds on `d`
(of length below `2 ^ 32`), the first 12 bytes of the output are the
magic followed by `len(d)` as little-endian uint32, and the total length
is 12 plus the compressed payload's length. -/
theorem compress_framing (codec : BlockCodec) (d out : Bytes)
    (_hlen : d.length < 2 ^ 32) (h : Compress codec d = (some out, none)) :
    out.take 12 = HEADER ++ putUint32LE d.length ∧
    ∃ payload, out = (HEADER ++ putUint32LE d.length) ++ payload ∧
      out.length = 12 + payload.length := by
  have hhl : (HEADER ++ putUint32LE d.length).length = 12 := by
    simp [HEADER, putUint32LE]
  have hout : ∃ payload, out = (HEADER ++ putUint32LE d.length) ++ payload := by
    by_cases hd : d.length = 0
    · refine ⟨[], ?_⟩
      have hc : Compress codec d = (some (HEADER ++ putUint32LE d.length), none) := by
        simp [Compress, binaryAppendUint32, hd]
      rw [hc] at h
      injection h with h1 h2
      injection h1 with h1
      simp [← h1]
    · rcases hcb : codec.compressBlock d (CompressBlockBound d.length) with e | c
      · have hc : Compress codec d = (none, some (Err.codecErr e)) := by
          simp [Compress, binaryAppendUint32, hd, hcb]
        rw [hc] at h
        simp at h
      · refine ⟨c, ?_⟩
        have hc : Compress codec d = (some (HEADER ++ (putUint32LE d.length ++ c)), none) := by
          simp [Compress, binaryAppendUint32, hd, hcb]
        rw [hc] at h
        injection h with h1 h2
        injection h1 with h1
        rw [← h1, List.append_assoc]
  obtain ⟨payload, hp⟩ := hout
  subst hp
  refine ⟨?_, payload, rfl, ?_⟩
  · rw [← hhl, List.take_left]
  · rw [List.length_append, hhl]

theorem compress_framing_witness :
    ([0x6d, 0x6f, 0x7a, 0x4c, 0x7a, 0x34, 0x30, 0x00, 1, 0, 0, 0, 5] : Bytes).take 12 =
      HEADER ++ putUint32LE ([5] : Bytes).length ∧
    ∃ payload,
      ([0x6d, 0x6f, 0x7a, 0x4c, 0x7a, 0x34, 0x30, 0x00, 1, 0, 0, 0, 5] : Bytes) =
        (HEADER ++ putUint32LE ([5] : Bytes).length) ++ payload ∧
      ([0x6d, 0x6f, 0x7a, 0x4c, 0x7a, 0x34, 0x30, 0x00, 1, 0, 0, 0, 5] : Bytes).length =
        12 + payload.length :=
  compress_framing copyCodec [5]
    [0x6d, 0x6f, 0x7a, 0x4c, 0x7a, 0x34, 0x30, 0x00, 1, 0, 0, 0, 5]
    (by decide) (by decide)

/-- Every result of `Compress` is either a buffer with no error, or an
error with no buffer. -/
theorem compress_shape (codec : BlockCodec) (data : Bytes) :
    (∃ out, Compress codec data = (some out, none)) ∨
    (∃ e, Compress codec data = (none, some e)) := by
  by_cases hd : data.length = 0
  · exact Or.inl ⟨HEADER ++ putUint32LE data.length,
      by simp [Compress, binaryAppendUint32, hd]⟩
  · rcases hcb : codec.compressBlock data (CompressBlockBound data.length) with e | c
    · exact Or.inr ⟨Err.codecErr e, compress_err codec data e hd hcb⟩
    · exact Or.inl ⟨HEADER ++ (putUint32LE data.length ++ c),
        compress_ok codec data c hd hcb⟩

/-- Every result of `Decompress` is either a buffer with no error, or an
error with no buffer. -/
theorem decompress_shape (codec : BlockCodec) (input : Bytes) :
    (∃ out, Decompress codec input = (some out, none)) ∨
    (∃ e, Decompress codec input = (none, some e)) := by
  by_cases hp : HEADER <+: input
  · rcases hg : getUint32LE (input.drop HEADER.length) with _ | ⟨size, rest⟩
    · exact Or.inr ⟨Err.errInvalid, by simp [Decompress, hp, hg]⟩
    · by_cases hs : size = 0
      · exact Or.inl ⟨[], by simp [Decompress, hp, hg, hs]⟩
      · rcases hu : codec.uncompressBlock rest size with e | r
        · exact Or.inr ⟨Err.codecErr e, by simp [Decompress, hp, hg, hs, hu]⟩
        · by_cases hl : r.length = size
          · exact Or.inl ⟨r, by simp [Decompress, hp, hg, hs, hu, hl]⟩
          · exact Or.inr ⟨Err.sizeMismatch size r.length,
              by simp [Decompress, hp, hg, hs, hu, hl]⟩
  · exact Or.inr ⟨Err.errInvalid, by simp [Decompress, hp]⟩

/-- Claim C9 — no buffer on failure: whenever `Compress` or `Decompress`
returns an error (a `some` in the error component), the byte-sequence
component is `none` (Go's `nil`), never a partially filled buffer. -/
theorem error_returns_no_buffer (codec : BlockCodec) (data : Bytes) :
    ((Compress codec data).2.isSome → (Compress codec data).1 = none) ∧
    ((Decompress codec data).2.isSome → (Decompress codec data).1 = none) := by
  constructor
  · intro h
    rcases compress_shape codec data with ⟨out, ho⟩ | ⟨e, he⟩
    · rw [ho] at h
      simp at h
    · rw [he]
  · intro h
    rcases decompress_shape codec data with ⟨out, ho⟩ | ⟨e, he⟩
    · rw [ho] at h
      simp at h
    · rw [he]

theorem error_returns_no_buffer_witness :
    (Decompress copyCodec [1, 2, 3]).1 = none :=
  (error_returns_no_buffer copyCodec [1, 2, 3]).2 (by decide)

/-- Claim C10 — `Compress` can fail only through the block compressor: the
`binary.Append` of the fixed-size `uint32` size field always succeeds
(its error branch is unreachable), every error `Compress` returns is one
the compressor produced, and whenever the compressor accepts the input
`Compress` succeeds. -/
theorem compress_fails_only_with_compressor (codec : BlockCodec) (data : Bytes) :
    binaryAppendUint32 HEADER data.length =
      Except.ok (HEADER ++ putUint32LE data.length) ∧
    (∀ e, Compress codec data = (none, some e) →
      ∃ e2, codec.compressBlock data (CompressBlockBound data.length) =
        Except.error e2 ∧ e = Err.codecErr e2) ∧
    (∀ c, codec.compressBlock data (CompressBlockBound data.length) = Except.ok c →
      ∃ out, Compress codec data = (some out, none)) := by
  refine ⟨rfl, ?_, ?_⟩
  · intro e he
    by_cases hd : data.length = 0
    · have hc : Compress codec data = (some (HEADER ++ putUint32LE data.length), none) := by
        simp [Compress, binaryAppendUint32, hd]
      rw [hc] at he
      simp at he
    · rcases hcb : codec.compressBlock data (CompressBlockBound data.length) with e2 | c
      · refine ⟨e2, rfl, ?_⟩
        rw [compress_err codec data e2 hd hcb] at he
        injection he with h1 h2
        injection h2 with h2
        exact h2.symm
      · rw [compress_ok codec data c hd hcb] at he
        simp at he
  · intro c hc
    by_cases hd : data.length = 0
    · exact ⟨HEADER ++ putUint32LE data.length, by simp [Compress, binaryAppendUint32, hd]⟩
    · exact ⟨HEADER ++ (putUint32LE data.length ++ c), compress_ok codec data c hd hc⟩

theorem compress_fails_only_with_compressor_witness :
    ∃ e2, failCodec.compressBlock [1] (CompressBlockBound ([1] : Bytes).length) =
      Except.error e2 ∧ Err.codecErr 7 = Err.codecErr e2 :=
  (compress_fails_only_with_compressor failCodec [1]).2.1 (Err.codecErr 7) (by decide)

end Mozlz4
